import Mathlib

/-!
# SampleHeap (include/sampleheap.hpp)

A shallow embedding of the sampling allocator wrapper `SampleHeap`:
its four counters, `writeCount`, `recordCallStack`, `malloc` and `free`,
with every externally visible action recorded in an ordered effect trace.

Collaborators that are not part of the header (the underlying allocator
`SuperHeap`, the three `Sampler` objects, `backtrace`, `dladdr` and the
address-to-name table) are not modelled: what they return in one call is
an input of that call.
-/

namespace SampleHeap

/-! ## Machine arithmetic -/

/-- Number of values of a 64-bit unsigned integer (`uint64_t`, `size_t`,
`unsigned long`). -/
def word : Nat := 2 ^ 64

/-- Addition of two 64-bit unsigned integers. -/
def add64 (a b : Nat) : Nat := (a + b) % word

/-- Multiplication of two 64-bit unsigned integers. -/
def mul64 (a b : Nat) : Nat := (a * b) % word

/-! ## C strings -/

/-- A NUL-terminated C string, as the list of its characters. -/
abbrev CString := List Char

/-- The C function `strlen`. -/
def strlen (s : CString) : Nat := s.length

/-- The C function `strstr haystack needle`, written with the needle first:
the offset of the first occurrence of the needle, `none` for a null
result. -/
def strstr (needle : CString) : CString → Option Nat
  | [] => if needle.isPrefixOf [] then some 0 else none
  | c :: t =>
    if needle.isPrefixOf (c :: t) then some 0
    else (strstr needle t).map (· + 1)

/-- The literal `"Py"`. -/
def litPy : CString := ['P', 'y']

/-- The literal `"PyArray_"`. -/
def litPyArray : CString := ['P', 'y', 'A', 'r', 'r', 'a', 'y', '_']

/-- The literal `"_Py"`. -/
def litUPy : CString := ['_', 'P', 'y']

/-- The literal `"_PyCFunction"`. -/
def litUPyCFunction : CString :=
  ['_', 'P', 'y', 'C', 'F', 'u', 'n', 'c', 't', 'i', 'o', 'n']

/-! ## Data model -/

/-- The two notification signals (`enum AllocSignal`). -/
inductive AllocSignal where
  | MallocSignal
  | FreeSignal
  deriving DecidableEq, Repr

/-- The four counters of a `SampleHeap` object. -/
structure Heap where
  mallocTriggered : Nat
  freeTriggered : Nat
  pythonCount : Nat
  cCount : Nat
  deriving DecidableEq, Repr

/-- The counters as the constructor leaves them. -/
def Heap.fresh : Heap := ⟨0, 0, 0, 0⟩

/-- One line `kind,triggerCount,byteEstimate,fraction` as `writeCount`
formats it.  The fraction is kept as the two operands of the division
`(float) _pythonCount / (_pythonCount + _cCount)`. -/
structure Record where
  kind : Char
  triggerCount : Nat
  byteEstimate : Nat
  fracNum : Nat
  fracDen : Nat
  deriving DecidableEq, Repr

/-- The exact quotient of the two operands of a record's fraction, before any
floating-point rounding.  This is not the value `writeCount` reports; that is
`Record.reported`. -/
def Record.exactQuotient (r : Record) : ℚ := (r.fracNum : ℚ) / (r.fracDen : ℚ)

/-- Rounding of a rational to the nearest integer, a tie going to the even
neighbour. -/
def roundHalfEven (q : ℚ) : ℤ :=
  if q - ⌊q⌋ < 1 / 2 then ⌊q⌋
  else if 1 / 2 < q - ⌊q⌋ then ⌊q⌋ + 1
  else if ⌊q⌋ % 2 = 0 then ⌊q⌋
  else ⌊q⌋ + 1

/-- The `float` (IEEE 754 binary32, round to nearest, ties to even) nearest to
a non-negative rational: 24 significant bits, least exponent -126 (below it
the spacing stays 2^-149), `none` for a result that overflows to infinity. -/
def roundBinary32 (x : ℚ) : Option ℚ :=
  if x = 0 then some 0
  else
    let e : ℤ := max (Int.log 2 x) (-126)
    let y : ℚ := (roundHalfEven (x / 2 ^ (e - 23)) : ℚ) * 2 ^ (e - 23)
    if y < 2 ^ 128 then some y else none

/-- The expression `(float) num / den` for two 64-bit unsigned operands: both
are converted to `float`, then divided in `float`; `none` when the result is
not a finite number (division by zero). -/
def floatQuotient (num den : Nat) : Option ℚ :=
  match roundBinary32 num, roundBinary32 den with
  | some a, some b => if b = 0 then none else roundBinary32 (a / b)
  | _, _ => none

/-- The interpreter fraction a record reports: the `float` value of
`(float) _pythonCount / (_pythonCount + _cCount)` handed to the formatter. -/
def Record.reported (r : Record) : Option ℚ := floatQuotient r.fracNum r.fracDen

/-- One stack entry as the loop of `recordCallStack` sees it: what
`_table.get` returns for the address (`none` for a null pointer) and what
`dladdr` would answer (`none` when it returns 0, otherwise `dli_sname`,
which may itself be null). -/
structure Frame where
  cached : Option CString
  dl : Option (Option CString)
  deriving DecidableEq, Repr

/-- Externally visible actions of one call, in program order. -/
inductive Effect where
  | superMalloc (sz : Nat)
  | getSize (ptr : Nat)
  | superFree (ptr : Nat)
  | abort
  | sampleMalloc (realSize : Nat)
  | sampleCallStack (realSize : Nat)
  | sampleFree (realSize : Nat)
  | classify (sz : Nat)
  | write (r : Record)
  | raise (sig : AllocSignal)
  deriving DecidableEq, Repr

/-- What the collaborators answer during one `malloc`: the pointer returned
by `SuperHeap::malloc` (0 is the null pointer), `SuperHeap::getSize`, the
results of the two samplers and the call stack, closest caller first. -/
structure MallocEnv where
  ptr : Nat
  realSize : Nat
  sampleMalloc : Nat
  sampleCallStack : Nat
  stack : List Frame
  deriving DecidableEq, Repr

/-- What the collaborators answer during one `free`: the size returned by
`SuperHeap::free` and the result of the free sampler. -/
structure FreeEnv where
  realSize : Nat
  sampleFree : Nat
  deriving DecidableEq, Repr

/-- Outcome of one call: counters, effects, returned pointer (0 for `free`)
and whether an assertion stopped the process. -/
structure CallResult where
  heap : Heap
  trace : List Effect
  ret : Nat
  aborted : Bool
  deriving DecidableEq, Repr

/-! ## writeCount -/

/-- The method `writeCount(sig, count)`: the zero guard on `_pythonCount`,
then the record it writes. -/
def writeCount (h : Heap) (sig : AllocSignal) (count : Nat) : Heap × Record :=
  let h1 : Heap := if h.pythonCount = 0 then { h with pythonCount := 1 } else h
  (h1,
   { kind := if sig = AllocSignal.MallocSignal then 'M' else 'F'
     triggerCount := add64 h1.mallocTriggered h1.freeTriggered
     byteEstimate := count
     fracNum := h1.pythonCount
     fracDen := add64 h1.pythonCount h1.cCount })

/-! ## recordCallStack -/

/-- The constant `MAX_FRAMES_TO_CHECK`. -/
def MAX_FRAMES_TO_CHECK : Nat := 4

/-- The call `backtrace(callstack, max)`: at most `max` entries. -/
def backtrace (max : Nat) (stack : List Frame) : List Frame := stack.take max

/-- How one iteration of the loop in `recordCallStack` ends. -/
inductive Flow where
  | next
  | python
  | ccode
  deriving DecidableEq, Repr

/-- The loop body after `fn_name` has been set. -/
def nameFlow (fn_name : Option CString) : Flow :=
  match fn_name with
  | none => Flow.next
  | some name =>
    if strlen name < 9 then Flow.next
    else if strstr litPy name = some 0 then
      if (strstr litPyArray name).isSome then Flow.ccode else Flow.python
    else if strstr litUPy name = none then Flow.next
    else if (strstr litUPyCFunction name).isSome then Flow.ccode
    else Flow.python

/-- One iteration of the loop: table lookup, `dladdr` on a miss, then the
tests on the name. -/
def frameFlow (f : Frame) : Flow :=
  match f.cached with
  | none =>
    match f.dl with
    | none => Flow.next
    | some sname => nameFlow sname
  | some v => nameFlow (some v)

/-- The `for` loop: the first iteration that does not `continue` decides;
running out of frames falls through to the label `C_CODE`. -/
def walk : List Frame → Flow
  | [] => Flow.ccode
  | f :: rest =>
    match frameFlow f with
    | Flow.next => walk rest
    | Flow.python => Flow.python
    | Flow.ccode => Flow.ccode

/-- The method `recordCallStack(sz)`. -/
def recordCallStack (h : Heap) (sz : Nat) (stack : List Frame) : Heap :=
  match walk (backtrace MAX_FRAMES_TO_CHECK stack) with
  | Flow.python => { h with pythonCount := add64 h.pythonCount sz }
  | _ => { h with cCount := add64 h.cCount sz }

/-! ## malloc and free -/

/-- The two assertions of `malloc`; `ndebug` is true when they are compiled
out. -/
def assertsPass (ndebug : Bool) (sz realSize : Nat) : Bool :=
  ndebug || (decide (realSize ≥ sz) && (decide (sz < 16) || decide (realSize ≤ mul64 2 sz)))

/-- The method `malloc(sz)` for sampling rate `rate`
(`MallocSamplingRateBytes`). -/
def malloc (ndebug : Bool) (rate : Nat) (h : Heap) (sz : Nat) (env : MallocEnv) :
    CallResult :=
  if env.ptr = 0 then
    { heap := h, trace := [Effect.superMalloc sz], ret := env.ptr, aborted := false }
  else if assertsPass ndebug sz env.realSize = false then
    { heap := h, trace := [Effect.superMalloc sz, Effect.getSize env.ptr, Effect.abort],
      ret := env.ptr, aborted := true }
  else
    let t1 := [Effect.superMalloc sz, Effect.getSize env.ptr,
               Effect.sampleMalloc env.realSize, Effect.sampleCallStack env.realSize]
    let h1 := if env.sampleCallStack ≠ 0 then recordCallStack h env.realSize env.stack else h
    let t2 := if env.sampleCallStack ≠ 0 then t1 ++ [Effect.classify env.realSize] else t1
    if env.sampleMalloc ≠ 0 then
      let w := writeCount h1 AllocSignal.MallocSignal (mul64 env.sampleMalloc rate)
      { heap := { w.1 with pythonCount := 0, cCount := 0,
                           mallocTriggered := add64 w.1.mallocTriggered 1 }
        trace := t2 ++ [Effect.write w.2, Effect.raise AllocSignal.MallocSignal]
        ret := env.ptr, aborted := false }
    else
      { heap := h1, trace := t2, ret := env.ptr, aborted := false }

/-- The method `free(ptr)`. -/
def free (rate : Nat) (h : Heap) (ptr : Nat) (env : FreeEnv) : CallResult :=
  if ptr = 0 then
    { heap := h, trace := [], ret := 0, aborted := false }
  else if env.sampleFree ≠ 0 then
    let w := writeCount h AllocSignal.FreeSignal (mul64 env.sampleFree rate)
    { heap := { w.1 with freeTriggered := add64 w.1.freeTriggered 1 }
      trace := [Effect.superFree ptr, Effect.sampleFree env.realSize,
                Effect.write w.2, Effect.raise AllocSignal.FreeSignal]
      ret := 0, aborted := false }
  else
    { heap := h, trace := [Effect.superFree ptr, Effect.sampleFree env.realSize],
      ret := 0, aborted := false }

/-! ## Sequences of calls -/

/-- One call of the public interface with what its collaborators answer. -/
inductive Call where
  | malloc (sz : Nat) (env : MallocEnv)
  | free (ptr : Nat) (env : FreeEnv)
  deriving DecidableEq, Repr

/-- Execution of one call. -/
def step (ndebug : Bool) (rate : Nat) (h : Heap) : Call → CallResult
  | Call.malloc sz env => malloc ndebug rate h sz env
  | Call.free ptr env => free rate h ptr env

/-- Execution of a sequence of calls on one wrapper: final counters and the
whole effect trace.  A failed assertion ends the process. -/
def run (ndebug : Bool) (rate : Nat) : Heap → List Call → Heap × List Effect
  | h, [] => (h, [])
  | h, c :: cs =>
    let r := step ndebug rate h c
    if r.aborted then (r.heap, r.trace)
    else
      let rest := run ndebug rate r.heap cs
      (rest.1, r.trace ++ rest.2)

/-- The records written in a trace, in emission order. -/
def records : List Effect → List Record
  | [] => []
  | Effect.write r :: t => r :: records t
  | _ :: t => records t

/-- The signals raised in a trace, in order. -/
def signals : List Effect → List AllocSignal
  | [] => []
  | Effect.raise s :: t => s :: signals t
  | _ :: t => signals t

/-- The record writes and signal raises of a trace, in order. -/
def notifications : List Effect → List Effect
  | [] => []
  | Effect.write r :: t => Effect.write r :: notifications t
  | Effect.raise s :: t => Effect.raise s :: notifications t
  | _ :: t => notifications t

/-- Whether the notification sampler, the call-stack sampler or the free
sampler is consulted by this effect. -/
def Effect.isSample : Effect → Bool
  | Effect.sampleMalloc _ => true
  | Effect.sampleCallStack _ => true
  | Effect.sampleFree _ => true
  | _ => false

/-- Whether this effect is an invocation of the classifier. -/
def Effect.isClassify : Effect → Bool
  | Effect.classify _ => true
  | _ => false

/-! ## The decision table of the classifier, as the specification words it -/

/-- The name the loop of `recordCallStack` ends up testing for a frame: the
cached name on a table hit, otherwise the `dli_sname` answered by `dladdr`;
`none` when the lookup fails or the name is null. -/
def resolvedName (f : Frame) : Option CString :=
  match f.cached with
  | some v => some v
  | none =>
    match f.dl with
    | none => none
    | some sname => sname

/-- What one row lookup of the decision table yields for a frame. -/
inductive Decision where
  | skip
  | interpreter
  | native
  deriving DecidableEq, Repr

/-- The per-frame decision table on a resolved name, row by row: unresolved
or shorter than 9 characters is skipped; a name beginning with `Py` decides
interpreter unless it contains `PyArray_`, which decides native; a name
without `_Py` is skipped; otherwise `_PyCFunction` decides native and its
absence interpreter. -/
def tableRow (name : Option CString) : Decision :=
  match name with
  | none => Decision.skip
  | some n =>
    if n.length < 9 then Decision.skip
    else if litPy <+: n then
      if litPyArray <:+: n then Decision.native else Decision.interpreter
    else if ¬ (litUPy <:+: n) then Decision.skip
    else if litUPyCFunction <:+: n then Decision.native
    else Decision.interpreter

/-- The table folded over the frames, closest caller first: the first frame
that decides wins; when none decides the result is native. -/
def tableFold : List (Option CString) → Decision
  | [] => Decision.native
  | name :: rest =>
    match tableRow name with
    | Decision.skip => tableFold rest
    | d => d

/-- The accounting of a decision: interpreter adds the size to
`_pythonCount`, native adds it to `_cCount`. -/
def applyDecision (h : Heap) (sz : Nat) : Decision → Heap
  | Decision.interpreter => { h with pythonCount := add64 h.pythonCount sz }
  | _ => { h with cCount := add64 h.cCount sz }

/-- The resolved name of the nearest frame on which the loop does not
`continue`, if there is such a frame. -/
def nearestMatching (stack : List Frame) : Option CString :=
  match stack.find? (fun f => decide (frameFlow f ≠ Flow.next)) with
  | none => none
  | some f => resolvedName f

/-! ## Observations on runs -/

/-- The `triggerCount` fields of the records written by a sequence of calls
on a freshly constructed wrapper, in emission order. -/
def emittedCounts (ndebug : Bool) (rate : Nat) (calls : List Call) : List Nat :=
  (records (run ndebug rate Heap.fresh calls).2).map Record.triggerCount

/-- Four allocations of 2^62, 2^62, 2^62 and 2^62 - 1 bytes, each granted at
its requested size and each attributed (to native code, the stack being
empty); the notification sampler fires on the last one only. -/
def wrapCalls : List Call :=
  [Call.malloc (2 ^ 62) ⟨4096, 2 ^ 62, 0, 1, []⟩,
   Call.malloc (2 ^ 62) ⟨8192, 2 ^ 62, 0, 1, []⟩,
   Call.malloc (2 ^ 62) ⟨12288, 2 ^ 62, 0, 1, []⟩,
   Call.malloc (2 ^ 62 - 1) ⟨16384, 2 ^ 62 - 1, 1, 1, []⟩]

/-! ## Auxiliary lemmas -/

/-- When the guarded sum does not wrap, the two operands of the fraction written by
`writeCount` are `max p 1` and `max p 1 + c`. -/
theorem writeCount_operands (h : Heap) (sig : AllocSignal) (count : Nat)
    (hno : max h.pythonCount 1 + h.cCount < word) :
    (writeCount h sig count).2.fracNum = max h.pythonCount 1 ∧
    (writeCount h sig count).2.fracDen = max h.pythonCount 1 + h.cCount := by
  unfold writeCount
  by_cases hp : h.pythonCount = 0
  · simp only [hp, if_true] at hno ⊢
    refine ⟨by simp, ?_⟩
    simp only [add64]
    exact Nat.mod_eq_of_lt hno
  · have h1 : max h.pythonCount 1 = h.pythonCount := by omega
    simp only [hp, if_false]
    rw [h1] at hno ⊢
    refine ⟨rfl, ?_⟩
    simp only [add64]
    exact Nat.mod_eq_of_lt hno

/-- The only change `writeCount` makes to the counters is the zero guard on `_pythonCount`. -/
theorem writeCount_heap (h : Heap) (sig : AllocSignal) (count : Nat) :
    (writeCount h sig count).1 = { h with pythonCount := max h.pythonCount 1 } := by
  unfold writeCount
  by_cases hp : h.pythonCount = 0
  · simp [hp]
  · have h1 : max h.pythonCount 1 = h.pythonCount := by omega
    simp [hp, h1]

/-- The records of a concatenated trace. -/
theorem records_append (a b : List Effect) : records (a ++ b) = records a ++ records b := by
  induction a with
  | nil => rfl
  | cons e t ih => cases e <;> simp [records, ih]

/-- The record of `writeCount` in terms of the counters before the call. -/
theorem writeCount_record (h : Heap) (sig : AllocSignal) (count : Nat) :
    (writeCount h sig count).2 =
      { kind := if sig = AllocSignal.MallocSignal then 'M' else 'F'
        triggerCount := add64 h.mallocTriggered h.freeTriggered
        byteEstimate := count
        fracNum := max h.pythonCount 1
        fracDen := add64 (max h.pythonCount 1) h.cCount } := by
  unfold writeCount
  by_cases hp : h.pythonCount = 0
  · simp [hp]
  · have h1 : max h.pythonCount 1 = h.pythonCount := by omega
    simp [hp, h1]

/-- The classifier leaves the two trigger counters alone. -/
theorem recordCallStack_triggered (h : Heap) (sz : Nat) (stack : List Frame) :
    (recordCallStack h sz stack).mallocTriggered = h.mallocTriggered ∧
    (recordCallStack h sz stack).freeTriggered = h.freeTriggered := by
  unfold recordCallStack
  split <;> exact ⟨rfl, rfl⟩

/-- One call writes no record and keeps the combined trigger count, or writes one record
carrying the combined count and advances it by one. -/
theorem step_records (ndebug : Bool) (rate : Nat) (h : Heap) (c : Call) :
    (records (step ndebug rate h c).trace = [] ∧
      ((step ndebug rate h c).heap.mallocTriggered + (step ndebug rate h c).heap.freeTriggered) % word
        = (h.mallocTriggered + h.freeTriggered) % word) ∨
    ((records (step ndebug rate h c).trace).map Record.triggerCount
        = [(h.mallocTriggered + h.freeTriggered) % word] ∧
      ((step ndebug rate h c).heap.mallocTriggered + (step ndebug rate h c).heap.freeTriggered) % word
        = (h.mallocTriggered + h.freeTriggered + 1) % word) := by
  have hr := fun (sz : Nat) (st : List Frame) => recordCallStack_triggered h sz st
  cases c with
  | malloc sz env =>
    simp only [step]
    by_cases hp : env.ptr = 0
    · left; simp [malloc, hp, records]
    · by_cases ha : assertsPass ndebug sz env.realSize = true
      · by_cases hm : env.sampleMalloc = 0
        · left
          have h1 : records (malloc ndebug rate h sz env).trace = [] := by
            by_cases hc : env.sampleCallStack = 0 <;> simp [malloc, hp, ha, hm, hc, records]
          have h2 : (malloc ndebug rate h sz env).heap.mallocTriggered = h.mallocTriggered := by
            by_cases hc : env.sampleCallStack = 0 <;> simp [malloc, hp, ha, hm, hc, hr]
          have h3 : (malloc ndebug rate h sz env).heap.freeTriggered = h.freeTriggered := by
            by_cases hc : env.sampleCallStack = 0 <;> simp [malloc, hp, ha, hm, hc, hr]
          rw [h1, h2, h3]
          exact ⟨rfl, rfl⟩
        · right
          have h1 : (records (malloc ndebug rate h sz env).trace).map Record.triggerCount =
              [(h.mallocTriggered + h.freeTriggered) % word] := by
            by_cases hc : env.sampleCallStack = 0 <;>
              simp [malloc, hp, ha, hm, hc, records, writeCount_record, add64, hr]
          have h2 : (malloc ndebug rate h sz env).heap.mallocTriggered =
              (h.mallocTriggered + 1) % word := by
            by_cases hc : env.sampleCallStack = 0 <;>
              simp [malloc, hp, ha, hm, hc, writeCount_heap, add64, hr]
          have h3 : (malloc ndebug rate h sz env).heap.freeTriggered = h.freeTriggered := by
            by_cases hc : env.sampleCallStack = 0 <;>
              simp [malloc, hp, ha, hm, hc, writeCount_heap, hr]
          rw [h1, h2, h3]
          refine ⟨rfl, ?_⟩
          simp only [word]
          omega
      · left; simp [malloc, hp, ha, records]
  | free ptr env =>
    simp only [step]
    by_cases hp : ptr = 0
    · left; simp [free, hp, records]
    · by_cases hm : env.sampleFree = 0
      · left; simp [free, hp, hm, records]
      · right
        have h1 : (records (free rate h ptr env).trace).map Record.triggerCount =
            [(h.mallocTriggered + h.freeTriggered) % word] := by
          simp [free, hp, hm, records, writeCount_record, add64]
        have h2 : (free rate h ptr env).heap.mallocTriggered = h.mallocTriggered := by
          simp [free, hp, hm, writeCount_heap]
        have h3 : (free rate h ptr env).heap.freeTriggered = (h.freeTriggered + 1) % word := by
          simp [free, hp, hm, writeCount_heap, add64]
        rw [h1, h2, h3]
        refine ⟨rfl, ?_⟩
        simp only [word]
        omega

/-- From any counters, the records of a run carry consecutive combined counts modulo 2^64. -/
theorem run_counts (ndebug : Bool) (rate : Nat) (calls : List Call) :
    ∀ h : Heap,
      (records (run ndebug rate h calls).2).map Record.triggerCount =
        (List.range (records (run ndebug rate h calls).2).length).map
          (fun i => (h.mallocTriggered + h.freeTriggered + i) % word) := by
  induction calls with
  | nil => intro h; simp [run, records]
  | cons c cs ih =>
    intro h
    simp only [run]
    by_cases hab : (step ndebug rate h c).aborted = true
    · simp only [hab, if_true]
      rcases step_records ndebug rate h c with ⟨h0, _⟩ | ⟨h1, _⟩
      · simp [h0]
      · have hl : (records (step ndebug rate h c).trace).length = 1 := by
          have := congrArg List.length h1
          simpa using this
        rw [h1, hl]
        simp [List.range_succ]
    · simp only [hab, if_false, Bool.false_eq_true]
      rw [records_append, List.map_append, ih, List.length_append]
      rcases step_records ndebug rate h c with ⟨h0, hs⟩ | ⟨h1, hs⟩
      · rw [h0]
        simp only [List.map_nil, List.nil_append, List.length_nil, Nat.zero_add]
        apply List.map_congr_left
        intro i _
        simp only [word] at hs ⊢
        omega
      · have hl : (records (step ndebug rate h c).trace).length = 1 := by
          have := congrArg List.length h1
          simpa using this
        rw [h1, hl, Nat.add_comm 1, List.range_succ_eq_map]
        simp only [List.map_cons, List.map_map, Nat.add_zero, List.singleton_append]
        congr 1
        apply List.map_congr_left
        intro i _
        simp only [Function.comp, word] at hs ⊢
        omega

/-- The call `strstr(s, needle) == &s[0]` holds exactly when `s` begins with the needle. -/
theorem strstr_zero_iff (needle s : CString) : strstr needle s = some 0 ↔ needle <+: s := by
  cases s with
  | nil =>
    unfold strstr
    by_cases hp : needle.isPrefixOf [] = true
    · simp only [hp, if_true, true_iff]
      exact List.isPrefixOf_iff_prefix.mp hp
    · simp only [hp, if_false, Bool.false_eq_true]
      constructor
      · intro h; cases h
      · intro h; exact absurd ( List.isPrefixOf_iff_prefix.mpr h) hp
  | cons c t =>
    unfold strstr
    by_cases hp : needle.isPrefixOf (c :: t) = true
    · simp only [hp, if_true, true_iff]
      exact List.isPrefixOf_iff_prefix.mp hp
    · simp only [hp, if_false, Bool.false_eq_true]
      constructor
      · intro h
        cases hs : strstr needle t with
        | none => rw [hs] at h; cases h
        | some k => rw [hs] at h; simp at h
      · intro h; exact absurd ( List.isPrefixOf_iff_prefix.mpr h) hp

/-- The call `strstr(s, needle)` is non-null exactly when `s` contains the needle. -/
theorem strstr_isSome_iff (needle : CString) :
    ∀ s : CString, (strstr needle s).isSome = true ↔ needle <:+: s := by
  intro s
  induction s with
  | nil =>
    unfold strstr
    by_cases hp : needle.isPrefixOf [] = true
    · simp only [hp, if_true, Option.isSome_some, true_iff]
      exact ( List.isPrefixOf_iff_prefix.mp hp).isInfix
    · simp only [hp, if_false, Bool.false_eq_true, Option.isSome_none, false_iff]
      intro h
      have : needle = [] := List.eq_nil_of_infix_nil h
      subst this
      exact hp (by simp)
  | cons c t ih =>
    unfold strstr
    by_cases hp : needle.isPrefixOf (c :: t) = true
    · simp only [hp, if_true, Option.isSome_some, true_iff]
      exact ( List.isPrefixOf_iff_prefix.mp hp).isInfix
    · simp only [hp, if_false, Bool.false_eq_true, Option.isSome_map']
      rw [ih, List.infix_cons_iff]
      constructor
      · intro h; exact Or.inr h
      · rintro (h | h)
        · exact absurd ( List.isPrefixOf_iff_prefix.mpr h) hp
        · exact h

/-- The call `strstr(s, needle)` is null exactly when `s` does not contain the needle. -/
theorem strstr_none_iff (needle s : CString) : strstr needle s = none ↔ ¬ needle <:+: s := by
  rw [← strstr_isSome_iff]
  cases strstr needle s <;> simp

/-- Per-frame agreement of the loop body with the decision table. -/
theorem frameFlow_eq_tableRow (f : Frame) :
    (frameFlow f = Flow.next ↔ tableRow (resolvedName f) = Decision.skip) ∧
    (frameFlow f = Flow.python ↔ tableRow (resolvedName f) = Decision.interpreter) ∧
    (frameFlow f = Flow.ccode ↔ tableRow (resolvedName f) = Decision.native) := by
  have key : ∀ nm : Option CString,
      (nameFlow nm = Flow.next ↔ tableRow nm = Decision.skip) ∧
      (nameFlow nm = Flow.python ↔ tableRow nm = Decision.interpreter) ∧
      (nameFlow nm = Flow.ccode ↔ tableRow nm = Decision.native) := by
    intro nm
    cases nm with
    | none => simp [nameFlow, tableRow]
    | some n =>
      unfold nameFlow tableRow
      simp only [strlen, strstr_zero_iff, strstr_isSome_iff, strstr_none_iff]
      by_cases h1 : n.length < 9
      · simp [h1]
      · by_cases h2 : litPy <+: n
        · by_cases h3 : litPyArray <:+: n <;> simp [h1, h2, h3]
        · by_cases h4 : litUPy <:+: n
          · by_cases h5 : litUPyCFunction <:+: n <;> simp [h1, h2, h4, h5]
          · simp [h1, h2, h4]
  rcases f with ⟨cached, dl⟩
  cases cached with
  | some v => exact key (some v)
  | none =>
    cases dl with
    | none => simp [frameFlow, resolvedName, tableRow]
    | some sname => exact key sname

/-- The loop agrees with the fold of the decision table over the resolved names. -/
theorem walk_eq_tableFold (stack : List Frame) :
    (walk stack = Flow.python ↔ tableFold (stack.map resolvedName) = Decision.interpreter) ∧
    (walk stack = Flow.ccode ↔ tableFold (stack.map resolvedName) = Decision.native) := by
  induction stack with
  | nil => simp [walk, tableFold]
  | cons f rest ih =>
    obtain ⟨hn, hp, hc⟩ := frameFlow_eq_tableRow f
    simp only [walk, List.map_cons, tableFold]
    cases hf : frameFlow f with
    | next =>
      have := hn.mp hf
      simp only [this]
      exact ih
    | python =>
      have := hp.mp hf
      simp [this]
    | ccode =>
      have := hc.mp hf
      simp [this]

/-- The loop stops at the first frame that is not skipped. -/
theorem walk_find (stack : List Frame) :
    walk stack =
      match stack.find? (fun f => decide (frameFlow f ≠ Flow.next)) with
      | none => Flow.ccode
      | some f => frameFlow f := by
  induction stack with
  | nil => rfl
  | cons f rest ih =>
    simp only [walk, List.find?_cons]
    cases hf : frameFlow f with
    | next => simpa using ih
    | python => simp [hf]
    | ccode => simp [hf]

/-- The loop never ends undecided. -/
theorem walk_ne_next (stack : List Frame) : walk stack ≠ Flow.next := by
  induction stack with
  | nil => simp [walk]
  | cons f rest ih =>
    simp only [walk]
    cases hf : frameFlow f with
    | next => simpa using ih
    | python => simp
    | ccode => simp

/-- A stack of at most four frames is captured whole. -/
theorem backtrace_short (stack : List Frame) (hlen : stack.length ≤ 4) :
    backtrace MAX_FRAMES_TO_CHECK stack = stack := by
  unfold backtrace MAX_FRAMES_TO_CHECK
  exact List.take_of_length_le hlen

/-- Rounding to the nearest integer moves a rational by at most one half and lands on its
floor or the next integer. -/
theorem roundHalfEven_near (q : ℚ) :
    |(roundHalfEven q : ℚ) - q| ≤ 1 / 2 ∧ ⌊q⌋ ≤ roundHalfEven q ∧ roundHalfEven q ≤ ⌊q⌋ + 1 := by
  have h1 : ((⌊q⌋ : ℤ) : ℚ) ≤ q := Int.floor_le q
  have h2 : q < ((⌊q⌋ : ℤ) : ℚ) + 1 := Int.lt_floor_add_one q
  unfold roundHalfEven
  split_ifs with a b c
  · refine ⟨?_, le_refl _, by omega⟩
    rw [abs_le]; constructor <;> linarith
  · refine ⟨?_, by omega, le_refl _⟩
    rw [abs_le]; push_cast; constructor <;> linarith
  · refine ⟨?_, le_refl _, by omega⟩
    rw [abs_le]; constructor <;> linarith
  · refine ⟨?_, by omega, le_refl _⟩
    rw [abs_le]; push_cast; constructor <;> linarith

/-- In the normal range there is no overflow, the rounded value stays in the same binade
bounds and the relative rounding error is at most 2^-24. -/
theorem roundBinary32_normal (x : ℚ) (lo hi : ℤ) (hlo : -126 ≤ lo) (hhi : hi ≤ 126)
    (h1 : (2 : ℚ) ^ lo ≤ x) (h2 : x < (2 : ℚ) ^ (hi + 1)) :
    ∃ v : ℚ, roundBinary32 x = some v ∧ (2 : ℚ) ^ lo ≤ v ∧ v ≤ (2 : ℚ) ^ (hi + 1) ∧
      |v - x| ≤ x / 2 ^ 24 := by
  have h2pos : ∀ k : ℤ, (0 : ℚ) < (2 : ℚ) ^ k := fun k => zpow_pos (by norm_num) k
  have hx : 0 < x := lt_of_lt_of_le (h2pos lo) h1
  have hE1 : (2 : ℚ) ^ (Int.log 2 x) ≤ x := by
    have := Int.zpow_log_le_self (b := 2) (r := x) (by norm_num) hx
    simpa using this
  have hE2 : x < (2 : ℚ) ^ (Int.log 2 x + 1) := by
    have := Int.lt_zpow_succ_log_self (b := 2) (by norm_num) x
    simpa using this
  have hloE : lo ≤ Int.log 2 x := by
    have := (Int.zpow_le_iff_le_log (b := 2) (x := lo) (r := x) (by norm_num) hx).mp
      (by simpa using h1)
    exact this
  have hEhi : Int.log 2 x ≤ hi := by
    have := (Int.lt_zpow_iff_log_lt (b := 2) (x := hi + 1) (r := x) (by norm_num) hx).mp
      (by simpa using h2)
    omega
  have hmax : max (Int.log 2 x) (-126) = Int.log 2 x := max_eq_left (by omega)
  unfold roundBinary32
  simp only [hmax, if_neg (ne_of_gt hx)]
  generalize Int.log 2 x = E at hE1 hE2 hloE hEhi
  have ht : (0 : ℚ) < (2 : ℚ) ^ (E - 23) := h2pos _
  have hEt : (2 : ℚ) ^ E = 2 ^ 23 * (2 : ℚ) ^ (E - 23) := by
    rw [zpow_sub₀ (by norm_num : (2 : ℚ) ≠ 0)]
    field_simp
    ring
  have hEt1 : (2 : ℚ) ^ (E + 1) = 2 ^ 24 * (2 : ℚ) ^ (E - 23) := by
    rw [zpow_add_one₀ (by norm_num : (2 : ℚ) ≠ 0), hEt]
    ring
  have hxq : x / (2 : ℚ) ^ (E - 23) * (2 : ℚ) ^ (E - 23) = x := by
    field_simp
  have hq1 : (2 : ℚ) ^ 23 ≤ x / (2 : ℚ) ^ (E - 23) := by
    rw [le_div_iff₀ ht, ← hEt]
    exact hE1
  have hq2 : x / (2 : ℚ) ^ (E - 23) < (2 : ℚ) ^ 24 := by
    rw [div_lt_iff₀ ht, ← hEt1]
    exact hE2
  generalize x / (2 : ℚ) ^ (E - 23) = q at hxq hq1 hq2
  generalize (2 : ℚ) ^ (E - 23) = t at ht hEt hEt1 hxq
  obtain ⟨hnear, hfl, hfu⟩ := roundHalfEven_near q
  have hM1 : ((2 : ℚ) ^ 23) ≤ (roundHalfEven q : ℚ) := by
    have : ((2 ^ 23 : ℤ)) ≤ ⌊q⌋ := Int.le_floor.mpr (by push_cast; exact hq1)
    have : ((2 ^ 23 : ℤ)) ≤ roundHalfEven q := le_trans this hfl
    exact_mod_cast this
  have hM2 : (roundHalfEven q : ℚ) ≤ (2 : ℚ) ^ 24 := by
    have : ⌊q⌋ < ((2 ^ 24 : ℤ)) := Int.floor_lt.mpr (by push_cast; exact hq2)
    have : roundHalfEven q ≤ ((2 ^ 24 : ℤ)) := by omega
    exact_mod_cast this
  have hlo2 : (2 : ℚ) ^ lo ≤ (2 : ℚ) ^ E := zpow_le_zpow_right₀ (by norm_num) hloE
  have hhi2 : (2 : ℚ) ^ (E + 1) ≤ (2 : ℚ) ^ (hi + 1) :=
    zpow_le_zpow_right₀ (by norm_num) (by omega)
  have hhi3 : (2 : ℚ) ^ (hi + 1) ≤ (2 : ℚ) ^ (127 : ℤ) :=
    zpow_le_zpow_right₀ (by norm_num) (by omega)
  have hv1 : (2 : ℚ) ^ E ≤ (roundHalfEven q : ℚ) * t := by
    rw [hEt]; exact mul_le_mul_of_nonneg_right hM1 ht.le
  have hv2 : (roundHalfEven q : ℚ) * t ≤ (2 : ℚ) ^ (E + 1) := by
    rw [hEt1]; exact mul_le_mul_of_nonneg_right hM2 ht.le
  have hlt : (roundHalfEven q : ℚ) * t < 2 ^ 128 := by
    have h127 : (2 : ℚ) ^ (127 : ℤ) < 2 ^ 128 := by norm_num
    linarith
  refine ⟨(roundHalfEven q : ℚ) * t, by simp [hlt], by linarith, by linarith, ?_⟩
  have hdiff : (roundHalfEven q : ℚ) * t - x = ((roundHalfEven q : ℚ) - q) * t := by
    rw [← hxq]; ring
  rw [hdiff, abs_mul, abs_of_pos ht]
  have h3 : |(roundHalfEven q : ℚ) - q| * t ≤ 1 / 2 * t :=
    mul_le_mul_of_nonneg_right hnear ht.le
  have h4 : 1 / 2 * t ≤ x / 2 ^ 24 := by
    rw [le_div_iff₀ (by norm_num)]
    have : (2 : ℚ) ^ 23 * t ≤ x := by rw [← hEt]; exact hE1
    linarith
  linarith


/-- The conversion of a positive 64-bit unsigned integer to `float`. -/
theorem roundBinary32_natCast (n : Nat) (h1 : 1 ≤ n) (h2 : n < 2 ^ 64) :
    ∃ a : ℚ, roundBinary32 (n : ℚ) = some a ∧ 1 ≤ a ∧ a ≤ 2 ^ 64 ∧
      |a - (n : ℚ)| ≤ (n : ℚ) / 2 ^ 24 := by
  have hq1 : (2 : ℚ) ^ (0 : ℤ) ≤ (n : ℚ) := by
    rw [zpow_zero]; exact_mod_cast h1
  have hq2 : (n : ℚ) < (2 : ℚ) ^ ((63 : ℤ) + 1) := by
    have : (n : ℚ) < 2 ^ 64 := by exact_mod_cast h2
    norm_num at this ⊢
    exact this
  obtain ⟨a, ha, hlo, hhi, herr⟩ :=
    roundBinary32_normal (n : ℚ) 0 63 (by norm_num) (by norm_num) hq1 hq2
  refine ⟨a, ha, ?_, ?_, herr⟩
  · simpa using hlo
  · norm_num at hhi ⊢
    exact hhi

/-- The `float` quotient of two positive 64-bit unsigned integers is finite, positive and
within relative error 2^-22 of the exact quotient. -/
theorem floatQuotient_normal (num den : Nat) (hn1 : 1 ≤ num) (hn2 : num < 2 ^ 64)
    (hd1 : 1 ≤ den) (hd2 : den < 2 ^ 64) :
    ∃ v : ℚ, floatQuotient num den = some v ∧ 0 < v ∧
      |v - (num : ℚ) / (den : ℚ)| ≤ (num : ℚ) / (den : ℚ) / 2 ^ 22 := by
  obtain ⟨a, ha, ha1, ha2, haerr⟩ := roundBinary32_natCast num hn1 hn2
  obtain ⟨b, hb, hb1, hb2, hberr⟩ := roundBinary32_natCast den hd1 hd2
  have hbpos : 0 < b := by linarith
  have hapos : 0 < a := by linarith
  have hx1 : (2 : ℚ) ^ (-64 : ℤ) ≤ a / b := by
    rw [le_div_iff₀ hbpos]
    have : (2 : ℚ) ^ (-64 : ℤ) * b ≤ 1 := by
      have h64 : (2 : ℚ) ^ (-64 : ℤ) = 1 / 2 ^ 64 := by norm_num
      rw [h64, div_mul_eq_mul_div, one_mul, div_le_one (by norm_num)]
      exact hb2
    linarith
  have hx2 : a / b < (2 : ℚ) ^ ((64 : ℤ) + 1) := by
    rw [div_lt_iff₀ hbpos]
    have h65 : (2 : ℚ) ^ ((64 : ℤ) + 1) = 2 ^ 65 := by norm_num
    rw [h65]
    nlinarith
  obtain ⟨v, hv, hvlo, _, hverr⟩ :=
    roundBinary32_normal (a / b) (-64) 64 (by norm_num) (by norm_num) hx1 hx2
  refine ⟨v, ?_, lt_of_lt_of_le (zpow_pos (by norm_num) _) hvlo, ?_⟩
  · unfold floatQuotient
    rw [ha, hb]
    simp only [if_neg (ne_of_gt hbpos)]
    exact hv
  · have hA : (0 : ℚ) < (num : ℚ) := by exact_mod_cast hn1
    have hB : (0 : ℚ) < (den : ℚ) := by exact_mod_cast hd1
    have hv0 : 0 < v := lt_of_lt_of_le (zpow_pos (by norm_num) _) hvlo
    have hxb : a / b * b = a := by field_simp
    rw [abs_le] at haerr hberr hverr
    have hau : a ≤ (num : ℚ) * (1 + 1 / 2 ^ 24) := by linarith [haerr.2]
    have hal : (num : ℚ) * (1 - 1 / 2 ^ 24) ≤ a := by linarith [haerr.1]
    have hbu : b ≤ (den : ℚ) * (1 + 1 / 2 ^ 24) := by linarith [hberr.2]
    have hbl : (den : ℚ) * (1 - 1 / 2 ^ 24) ≤ b := by linarith [hberr.1]
    have hvu : v ≤ a / b * (1 + 1 / 2 ^ 24) := by linarith [hverr.2]
    have hvl : a / b * (1 - 1 / 2 ^ 24) ≤ v := by linarith [hverr.1]
    have e1 : v * ((den : ℚ) * (1 - 1 / 2 ^ 24)) ≤ v * b :=
      mul_le_mul_of_nonneg_left hbl hv0.le
    have e2 : v * b ≤ a / b * (1 + 1 / 2 ^ 24) * b :=
      mul_le_mul_of_nonneg_right hvu hbpos.le
    have e3 : a / b * (1 + 1 / 2 ^ 24) * b = a * (1 + 1 / 2 ^ 24) := by
      rw [mul_right_comm, hxb]
    have e4 : a * (1 + 1 / 2 ^ 24) ≤ (num : ℚ) * (1 + 1 / 2 ^ 24) * (1 + 1 / 2 ^ 24) :=
      mul_le_mul_of_nonneg_right hau (by norm_num)
    have f1 : v * b ≤ v * ((den : ℚ) * (1 + 1 / 2 ^ 24)) :=
      mul_le_mul_of_nonneg_left hbu hv0.le
    have f2 : a / b * (1 - 1 / 2 ^ 24) * b ≤ v * b :=
      mul_le_mul_of_nonneg_right hvl hbpos.le
    have f3 : a / b * (1 - 1 / 2 ^ 24) * b = a * (1 - 1 / 2 ^ 24) := by
      rw [mul_right_comm, hxb]
    have f4 : (num : ℚ) * (1 - 1 / 2 ^ 24) * (1 - 1 / 2 ^ 24) ≤ a * (1 - 1 / 2 ^ 24) :=
      mul_le_mul_of_nonneg_right hal (by norm_num)
    have hup : v * (den : ℚ) ≤ (num : ℚ) * (1 + 1 / 2 ^ 22) := by
      linarith
    have hdn : (num : ℚ) * (1 - 1 / 2 ^ 22) ≤ v * (den : ℚ) := by
      linarith
    have k1 : (num : ℚ) / (den : ℚ) + (num : ℚ) / (den : ℚ) / 2 ^ 22 =
        (num : ℚ) * (1 + 1 / 2 ^ 22) / (den : ℚ) := by
      field_simp
      ring
    have k2 : (num : ℚ) / (den : ℚ) - (num : ℚ) / (den : ℚ) / 2 ^ 22 =
        (num : ℚ) * (1 - 1 / 2 ^ 22) / (den : ℚ) := by
      field_simp
      ring
    rw [abs_le]
    constructor
    · have : (num : ℚ) * (1 - 1 / 2 ^ 22) / (den : ℚ) ≤ v := (div_le_iff₀ hB).mpr hdn
      linarith
    · have : v ≤ (num : ℚ) * (1 + 1 / 2 ^ 22) / (den : ℚ) := (le_div_iff₀ hB).mpr hup
      linarith


/-- An integer rounds to itself. -/
theorem roundHalfEven_intCast (m : ℤ) : roundHalfEven (m : ℚ) = m := by
  unfold roundHalfEven
  simp

/-- Evaluation of the rounding once the binade of the argument is known. -/
theorem roundBinary32_exact (x : ℚ) (E M : ℤ) (hE : -126 ≤ E) (h1 : (2 : ℚ) ^ E ≤ x)
    (h2 : x < (2 : ℚ) ^ (E + 1)) (hM : roundHalfEven (x / 2 ^ (E - 23)) = M)
    (hlt : (M : ℚ) * 2 ^ (E - 23) < 2 ^ 128) :
    roundBinary32 x = some ((M : ℚ) * 2 ^ (E - 23)) := by
  have hx : 0 < x := lt_of_lt_of_le (zpow_pos (by norm_num) E) h1
  have hlog : Int.log 2 x = E := by
    have a1 : E ≤ Int.log 2 x :=
      (Int.zpow_le_iff_le_log (b := 2) (x := E) (r := x) (by norm_num) hx).mp (by simpa using h1)
    have a2 : Int.log 2 x < E + 1 :=
      (Int.lt_zpow_iff_log_lt (b := 2) (x := E + 1) (r := x) (by norm_num) hx).mp
        (by simpa using h2)
    omega
  unfold roundBinary32
  have hmax : max E (-126) = E := max_eq_left hE
  simp only [hlog, hmax, if_neg (ne_of_gt hx), hM, if_pos hlt]


/-- The number 1 is a `float`. -/
theorem roundBinary32_one : roundBinary32 (1 : ℚ) = some 1 := by
  have := roundBinary32_exact 1 0 8388608 (by norm_num) (by norm_num) (by norm_num)
    (by
      have : (1 : ℚ) / 2 ^ ((0 : ℤ) - 23) = ((8388608 : ℤ) : ℚ) := by norm_num
      rw [this, roundHalfEven_intCast]) (by norm_num)
  rw [this]; norm_num

/-- The number 2^24 is a `float`. -/
theorem roundBinary32_two24 : roundBinary32 (16777216 : ℚ) = some 16777216 := by
  have := roundBinary32_exact 16777216 24 8388608 (by norm_num) (by norm_num) (by norm_num)
    (by
      have : (16777216 : ℚ) / 2 ^ ((24 : ℤ) - 23) = ((8388608 : ℤ) : ℚ) := by norm_num
      rw [this, roundHalfEven_intCast]) (by norm_num)
  rw [this]; norm_num

/-- The number 2^24 + 1 is a tie between 2^24 and 2^24 + 2 and rounds to 2^24. -/
theorem roundBinary32_two24_succ : roundBinary32 (16777217 : ℚ) = some 16777216 := by
  have := roundBinary32_exact 16777217 24 8388608 (by norm_num) (by norm_num) (by norm_num)
    (by
      have hq : (16777217 : ℚ) / 2 ^ ((24 : ℤ) - 23) = 16777217 / 2 := by norm_num
      have hf : ⌊(16777217 : ℚ) / 2⌋ = 8388608 := by
        rw [Int.floor_eq_iff]; norm_num
      rw [hq]
      unfold roundHalfEven
      rw [hf]
      norm_num) (by norm_num)
  rw [this]; norm_num


/-- The quotient in terms of the two converted operands. -/
theorem floatQuotient_eq (num den : Nat) (a b : ℚ) (ha : roundBinary32 (num : ℚ) = some a)
    (hb : roundBinary32 (den : ℚ) = some b) (hb0 : b ≠ 0) :
    floatQuotient num den = roundBinary32 (a / b) := by
  unfold floatQuotient
  rw [ha, hb]
  simp only [if_neg hb0]

/-- The quotient 1 / 1 in `float`. -/
theorem floatQuotient_one_one : floatQuotient 1 1 = some 1 := by
  have h := floatQuotient_eq 1 1 1 1 (by simpa using roundBinary32_one)
    (by simpa using roundBinary32_one) one_ne_zero
  rw [h, div_one]
  exact roundBinary32_one

/-- The quotient 2^24 / (2^24 + 1) in `float` is 1. -/
theorem floatQuotient_tie : floatQuotient 16777216 16777217 = some 1 := by
  have c1 : ((16777216 : ℕ) : ℚ) = 16777216 := by norm_num
  have c2 : ((16777217 : ℕ) : ℚ) = 16777217 := by norm_num
  have h := floatQuotient_eq 16777216 16777217 16777216 16777216
    (by rw [c1]; exact roundBinary32_two24) (by rw [c2]; exact roundBinary32_two24_succ)
    (by norm_num)
  have hd : (16777216 : ℚ) / 16777216 = 1 := by norm_num
  rw [h, hd]
  exact roundBinary32_one

/-! ## The claims -/

/-- Claim C1: when the underlying allocator returns the null pointer, `malloc`
returns null without aborting, leaves the four counters as they were, and its
whole effect trace is the one call of `SuperHeap::malloc`: no sampler is
consulted, the classifier is not invoked, no record is written and no signal is
raised. -/
theorem malloc_null_short_circuits (ndebug : Bool) (rate : Nat) (h : Heap) (sz : Nat)
    (env : MallocEnv) (hnull : env.ptr = 0) :
    (malloc ndebug rate h sz env).ret = 0 ∧
    (malloc ndebug rate h sz env).aborted = false ∧
    (malloc ndebug rate h sz env).heap = h ∧
    (malloc ndebug rate h sz env).trace = [Effect.superMalloc sz] ∧
    records (malloc ndebug rate h sz env).trace = [] ∧
    signals (malloc ndebug rate h sz env).trace = [] ∧
    ∀ e ∈ (malloc ndebug rate h sz env).trace, e.isSample = false ∧ e.isClassify = false := by
  simp [malloc, hnull, records, signals, Effect.isSample, Effect.isClassify]

/-- Claim C1 at a concrete input: a failed 4096-byte request on counters 3, 4, 5, 6,
with both samplers ready to fire. -/
theorem malloc_null_short_circuits_witness :
    (malloc false 1048576 ⟨3, 4, 5, 6⟩ 4096 ⟨0, 0, 1, 1, []⟩).heap = ⟨3, 4, 5, 6⟩ ∧
    (malloc false 1048576 ⟨3, 4, 5, 6⟩ 4096 ⟨0, 0, 1, 1, []⟩).trace = [Effect.superMalloc 4096] :=
  ⟨(malloc_null_short_circuits false 1048576 ⟨3, 4, 5, 6⟩ 4096 ⟨0, 0, 1, 1, []⟩ rfl).2.2.1,
   (malloc_null_short_circuits false 1048576 ⟨3, 4, 5, 6⟩ 4096 ⟨0, 0, 1, 1, []⟩ rfl).2.2.2.1⟩

/-- Claim C2: `free(nullptr)` leaves the four counters as they were and has an
empty effect trace: `SuperHeap::free` is not called, the free sampler is not
consulted, no record is written, no signal is raised and the classifier is not
invoked. -/
theorem free_null_noop (rate : Nat) (h : Heap) (env : FreeEnv) :
    (free rate h 0 env).heap = h ∧
    (free rate h 0 env).trace = [] ∧
    (free rate h 0 env).aborted = false := by
  simp [free]

/-- Claim C3 fails as stated: with `MallocSamplingRateBytes = 2^63` and a
notification sampler returning multiplier 2, the one record written by `malloc`
carries byte estimate 0, not `2 * 2^63`: the product is formed in
`unsigned long`. -/
theorem estimate_wraps_counterexample :
    (records (malloc false (2 ^ 63) Heap.fresh 4096 ⟨1, 4096, 2, 0, []⟩).trace).map
        Record.byteEstimate = [0] ∧
    (records (malloc false (2 ^ 63) Heap.fresh 4096 ⟨1, 4096, 2, 0, []⟩).trace).map
        Record.byteEstimate ≠ [2 * 2 ^ 63] := by
  decide

/-- Claim C3, amended: for a `malloc` that gets a non-null pointer and reaches
its samplers, and for a `free` of a non-null pointer, a multiplier 0 writes no
record and raises no signal; a multiplier `m > 0` writes exactly one record, of
kind `M` for `malloc` and `F` for `free`, whose byte estimate is `m * rate`
reduced modulo 2^64, hence `m * rate` itself whenever that product is below
2^64. -/
theorem sampled_record_estimate :
    (∀ (ndebug : Bool) (rate : Nat) (h : Heap) (sz : Nat) (env : MallocEnv),
      env.ptr ≠ 0 → assertsPass ndebug sz env.realSize = true →
      (env.sampleMalloc = 0 →
        records (malloc ndebug rate h sz env).trace = [] ∧
        signals (malloc ndebug rate h sz env).trace = []) ∧
      (0 < env.sampleMalloc →
        (records (malloc ndebug rate h sz env).trace).map Record.kind = ['M'] ∧
        (records (malloc ndebug rate h sz env).trace).map Record.byteEstimate =
          [(env.sampleMalloc * rate) % 2 ^ 64] ∧
        (env.sampleMalloc * rate < 2 ^ 64 →
          (records (malloc ndebug rate h sz env).trace).map Record.byteEstimate =
            [env.sampleMalloc * rate]))) ∧
    (∀ (rate : Nat) (h : Heap) (ptr : Nat) (env : FreeEnv),
      ptr ≠ 0 →
      (env.sampleFree = 0 →
        records (free rate h ptr env).trace = [] ∧
        signals (free rate h ptr env).trace = []) ∧
      (0 < env.sampleFree →
        (records (free rate h ptr env).trace).map Record.kind = ['F'] ∧
        (records (free rate h ptr env).trace).map Record.byteEstimate =
          [(env.sampleFree * rate) % 2 ^ 64] ∧
        (env.sampleFree * rate < 2 ^ 64 →
          (records (free rate h ptr env).trace).map Record.byteEstimate =
            [env.sampleFree * rate]))) := by
  constructor
  · intro ndebug rate h sz env hp ha
    constructor
    · intro hm
      unfold malloc
      by_cases hc : env.sampleCallStack = 0 <;> simp [hp, ha, hm, hc, records, signals]
    · intro hm
      have hm0 : env.sampleMalloc ≠ 0 := by omega
      have key : (records (malloc ndebug rate h sz env).trace).map Record.kind = ['M'] ∧
          (records (malloc ndebug rate h sz env).trace).map Record.byteEstimate =
            [(env.sampleMalloc * rate) % 2 ^ 64] := by
        unfold malloc
        by_cases hc : env.sampleCallStack = 0 <;>
          simp [hp, ha, hm0, hc, records, writeCount, mul64, word]
      refine ⟨key.1, key.2, ?_⟩
      intro hlt
      rw [key.2, Nat.mod_eq_of_lt hlt]
  · intro rate h ptr env hp
    constructor
    · intro hm
      unfold free
      simp [hp, hm, records, signals]
    · intro hm
      have hm0 : env.sampleFree ≠ 0 := by omega
      have key : (records (free rate h ptr env).trace).map Record.kind = ['F'] ∧
          (records (free rate h ptr env).trace).map Record.byteEstimate =
            [(env.sampleFree * rate) % 2 ^ 64] := by
        unfold free
        simp [hp, hm0, records, writeCount, mul64, word]
      refine ⟨key.1, key.2, ?_⟩
      intro hlt
      rw [key.2, Nat.mod_eq_of_lt hlt]

/-- Claim C3, amended, at concrete inputs: rate 1048576 with multipliers 3 (`malloc`)
and 2 (`free`). -/
theorem sampled_record_estimate_witness :
    (records (malloc false 1048576 Heap.fresh 4096 ⟨1, 4096, 3, 0, []⟩).trace).map
        Record.byteEstimate = [3 * 1048576] ∧
    (records (free 1048576 Heap.fresh 1 ⟨4096, 2⟩).trace).map
        Record.byteEstimate = [2 * 1048576] :=
  ⟨((sampled_record_estimate.1 false 1048576 Heap.fresh 4096 ⟨1, 4096, 3, 0, []⟩
      (by decide) (by decide)).2 (by decide)).2.2 (by decide),
   ((sampled_record_estimate.2 1048576 Heap.fresh 1 ⟨4096, 2⟩
      (by decide)).2 (by decide)).2.2 (by decide)⟩

/-- Claim C4: in the effect trace of a `malloc` or `free` call that raises a
signal, the record writes and signal raises are, in order, exactly one write
followed by exactly one raise, and the signal matches the record: kind `M` then
`MallocSignal` in `malloc`, kind `F` then `FreeSignal` in `free`. -/
theorem write_precedes_raise :
    (∀ (ndebug : Bool) (rate : Nat) (h : Heap) (sz : Nat) (env : MallocEnv),
      signals (malloc ndebug rate h sz env).trace ≠ [] →
      ∃ r : Record, r.kind = 'M' ∧
        notifications (malloc ndebug rate h sz env).trace =
          [Effect.write r, Effect.raise AllocSignal.MallocSignal]) ∧
    (∀ (rate : Nat) (h : Heap) (ptr : Nat) (env : FreeEnv),
      signals (free rate h ptr env).trace ≠ [] →
      ∃ r : Record, r.kind = 'F' ∧
        notifications (free rate h ptr env).trace =
          [Effect.write r, Effect.raise AllocSignal.FreeSignal]) := by
  constructor
  · intro ndebug rate h sz env hs
    unfold malloc at hs ⊢
    by_cases hp : env.ptr = 0
    · simp [hp, signals] at hs
    · by_cases ha : assertsPass ndebug sz env.realSize = false
      · simp [hp, ha, signals] at hs
      · by_cases hm : env.sampleMalloc = 0
        · by_cases hc : env.sampleCallStack = 0 <;> simp [hp, ha, hm, hc, signals] at hs
        · by_cases hc : env.sampleCallStack = 0 <;>
            simp [hp, ha, hm, hc, notifications, writeCount]
  · intro rate h ptr env hs
    unfold free at hs ⊢
    by_cases hp : ptr = 0
    · simp [hp, signals] at hs
    · by_cases hm : env.sampleFree = 0
      · simp [hp, hm, signals] at hs
      · simp [hp, hm, notifications, writeCount]

/-- Claim C4 at concrete inputs: a sampled `malloc` and a sampled `free` on a fresh
wrapper. -/
theorem write_precedes_raise_witness :
    (∃ r : Record, r.kind = 'M' ∧
      notifications (malloc false 1048576 Heap.fresh 64 ⟨1, 64, 1, 0, []⟩).trace =
        [Effect.write r, Effect.raise AllocSignal.MallocSignal]) ∧
    (∃ r : Record, r.kind = 'F' ∧
      notifications (free 1048576 Heap.fresh 1 ⟨64, 1⟩).trace =
        [Effect.write r, Effect.raise AllocSignal.FreeSignal]) :=
  ⟨write_precedes_raise.1 false 1048576 Heap.fresh 64 ⟨1, 64, 1, 0, []⟩ (by decide),
   write_precedes_raise.2 1048576 Heap.fresh 1 ⟨64, 1⟩ (by decide)⟩

/-- Claim C5: for every sequence of calls on a freshly constructed wrapper, the
`k`-th record written (counting from 0, allocate-class and release-class
together) carries trigger count `k mod 2^64`; so each record's count is one more
than the previous record's modulo 2^64, and as long as at most 2^64 records are
written the counts are exactly 0, 1, 2, ..., strictly increasing in steps of
one. -/
theorem trigger_counts_consecutive (ndebug : Bool) (rate : Nat) (calls : List Call) :
    emittedCounts ndebug rate calls =
      (List.range (emittedCounts ndebug rate calls).length).map (fun k => k % 2 ^ 64) ∧
    (∀ k a b : Nat, (emittedCounts ndebug rate calls)[k]? = some a →
      (emittedCounts ndebug rate calls)[k + 1]? = some b → b = (a + 1) % 2 ^ 64) ∧
    ((emittedCounts ndebug rate calls).length ≤ 2 ^ 64 →
      emittedCounts ndebug rate calls = List.range (emittedCounts ndebug rate calls).length ∧
      (emittedCounts ndebug rate calls).Pairwise (fun a b => a < b) ∧
      ∀ k a b : Nat, (emittedCounts ndebug rate calls)[k]? = some a →
        (emittedCounts ndebug rate calls)[k + 1]? = some b → b = a + 1) := by
  have hform : emittedCounts ndebug rate calls =
      (List.range (emittedCounts ndebug rate calls).length).map (fun k => k % 2 ^ 64) := by
    have := run_counts ndebug rate calls Heap.fresh
    unfold emittedCounts
    rw [List.length_map]
    rw [this]
    apply List.map_congr_left
    intro i _
    simp [Heap.fresh, word]
  have hget : ∀ k a : Nat, (emittedCounts ndebug rate calls)[k]? = some a →
      k < (emittedCounts ndebug rate calls).length ∧ a = k % 2 ^ 64 := by
    intro k a hk
    have hlt : k < (emittedCounts ndebug rate calls).length := by
      by_contra hge
      rw [List.getElem?_eq_none (Nat.le_of_not_lt hge)] at hk
      cases hk
    refine ⟨hlt, ?_⟩
    rw [hform, List.getElem?_map, List.getElem?_range hlt] at hk
    simpa using hk.symm
  refine ⟨hform, ?_, ?_⟩
  · intro k a b ha hb
    obtain ⟨_, rfl⟩ := hget k a ha
    obtain ⟨_, rfl⟩ := hget (k + 1) b hb
    omega
  · intro hlen
    have hrange : emittedCounts ndebug rate calls =
        List.range (emittedCounts ndebug rate calls).length := by
      conv_lhs => rw [hform]
      conv_rhs => rw [← List.map_id (List.range (emittedCounts ndebug rate calls).length)]
      apply List.map_congr_left
      intro i hi
      have : i < (emittedCounts ndebug rate calls).length := List.mem_range.mp hi
      simp only [id]
      omega
    refine ⟨hrange, ?_, ?_⟩
    · rw [hrange]
      exact List.pairwise_lt_range _
    · intro k a b ha hb
      obtain ⟨h1, rfl⟩ := hget k a ha
      obtain ⟨h2, rfl⟩ := hget (k + 1) b hb
      omega

/-- Claim C5 at a concrete input: six calls, three of them sampled, give the counts
0, 1, 2. -/
theorem trigger_counts_consecutive_witness :
    emittedCounts false 1048576
        [Call.free 4096 ⟨64, 1⟩, Call.malloc 64 ⟨4096, 64, 2, 0, []⟩, Call.free 4096 ⟨64, 0⟩,
         Call.free 0 ⟨0, 0⟩, Call.malloc 64 ⟨0, 0, 1, 1, []⟩, Call.free 8192 ⟨64, 3⟩] =
      List.range (emittedCounts false 1048576
        [Call.free 4096 ⟨64, 1⟩, Call.malloc 64 ⟨4096, 64, 2, 0, []⟩, Call.free 4096 ⟨64, 0⟩,
         Call.free 0 ⟨0, 0⟩, Call.malloc 64 ⟨0, 0, 1, 1, []⟩, Call.free 8192 ⟨64, 3⟩]).length ∧
    emittedCounts false 1048576
        [Call.free 4096 ⟨64, 1⟩, Call.malloc 64 ⟨4096, 64, 2, 0, []⟩, Call.free 4096 ⟨64, 0⟩,
         Call.free 0 ⟨0, 0⟩, Call.malloc 64 ⟨0, 0, 1, 1, []⟩, Call.free 8192 ⟨64, 3⟩] = [0, 1, 2] :=
  ⟨((trigger_counts_consecutive false 1048576
      [Call.free 4096 ⟨64, 1⟩, Call.malloc 64 ⟨4096, 64, 2, 0, []⟩, Call.free 4096 ⟨64, 0⟩,
       Call.free 0 ⟨0, 0⟩, Call.malloc 64 ⟨0, 0, 1, 1, []⟩, Call.free 8192 ⟨64, 3⟩]).2.2
      (by decide)).1, by decide⟩

/-- Claim C6 fails as stated: after four attributed allocations adding up to
2^64 - 1 native bytes with no notification in between, the record written by
the fourth has numerator 1 (the zero guard) and denominator
`(1 + (2^64 - 1)) mod 2^64 = 0`. -/
theorem fraction_denominator_wraps_counterexample :
    records (run false 1048576 Heap.fresh wrapCalls).2 =
      [{ kind := 'M', triggerCount := 0, byteEstimate := 1048576, fracNum := 1, fracDen := 0 }] := by
  decide

/-- Claim C6, amended: in every state reached by a sequence of calls on a fresh
wrapper in which the guarded sum `max(_pythonCount, 1) + _cCount` is below
2^64, the fraction written by `writeCount`, taken as the exact quotient of its
operands, has a non-zero denominator and lies in `[0, 1]`. -/
theorem fraction_in_unit_interval (ndebug : Bool) (rate : Nat) (calls : List Call)
    (sig : AllocSignal) (count : Nat)
    (hno : max (run ndebug rate Heap.fresh calls).1.pythonCount 1 +
      (run ndebug rate Heap.fresh calls).1.cCount < 2 ^ 64) :
    (writeCount (run ndebug rate Heap.fresh calls).1 sig count).2.fracDen ≠ 0 ∧
    0 ≤ (writeCount (run ndebug rate Heap.fresh calls).1 sig count).2.exactQuotient ∧
    (writeCount (run ndebug rate Heap.fresh calls).1 sig count).2.exactQuotient ≤ 1 := by
  obtain ⟨hn, hd⟩ := writeCount_operands (run ndebug rate Heap.fresh calls).1 sig count hno
  have hpos : 0 < (writeCount (run ndebug rate Heap.fresh calls).1 sig count).2.fracDen := by
    rw [hd]; omega
  have hle : (writeCount (run ndebug rate Heap.fresh calls).1 sig count).2.fracNum ≤
      (writeCount (run ndebug rate Heap.fresh calls).1 sig count).2.fracDen := by
    rw [hn, hd]; omega
  have hposq : (0 : ℚ) <
      ((writeCount (run ndebug rate Heap.fresh calls).1 sig count).2.fracDen : ℚ) := by
    exact_mod_cast hpos
  have hleq : ((writeCount (run ndebug rate Heap.fresh calls).1 sig count).2.fracNum : ℚ) ≤
      ((writeCount (run ndebug rate Heap.fresh calls).1 sig count).2.fracDen : ℚ) := by
    exact_mod_cast hle
  refine ⟨by omega, ?_, ?_⟩
  · unfold Record.exactQuotient
    positivity
  · unfold Record.exactQuotient
    rw [div_le_one hposq]
    exact hleq

/-- Claim C6, amended, at a concrete input: the state after one attributed
4096-byte allocation. -/
theorem fraction_in_unit_interval_witness :
    (writeCount (run false 1048576 Heap.fresh
        [Call.malloc 4096 ⟨4096, 4096, 0, 1, []⟩]).1 AllocSignal.FreeSignal 1048576).2.fracDen ≠ 0 ∧
    0 ≤ (writeCount (run false 1048576 Heap.fresh
        [Call.malloc 4096 ⟨4096, 4096, 0, 1, []⟩]).1 AllocSignal.FreeSignal 1048576).2.exactQuotient ∧
    (writeCount (run false 1048576 Heap.fresh
        [Call.malloc 4096 ⟨4096, 4096, 0, 1, []⟩]).1 AllocSignal.FreeSignal 1048576).2.exactQuotient ≤ 1 :=
  fraction_in_unit_interval false 1048576 [Call.malloc 4096 ⟨4096, 4096, 0, 1, []⟩]
    AllocSignal.FreeSignal 1048576 (by decide)

/-- Claim C7 fails as stated: a sampled `free` on tallies `_pythonCount = 0`,
`_cCount = 4096` raises `FreeSignal` and returns with `_pythonCount = 1` and
`_cCount = 4096`. -/
theorem free_keeps_tallies_counterexample :
    signals (free 1048576 (Heap.mk 0 0 0 4096) 1 ⟨4096, 1⟩).trace = [AllocSignal.FreeSignal] ∧
    (free 1048576 (Heap.mk 0 0 0 4096) 1 ⟨4096, 1⟩).heap.pythonCount = 1 ∧
    (free 1048576 (Heap.mk 0 0 0 4096) 1 ⟨4096, 1⟩).heap.cCount = 4096 := by
  decide

/-- Claim C7, amended: each time a notification sample fires in `malloc`, both
tallies are 0 when the call returns; a notification sample that fires in
`free` does not reset them: `_cCount` keeps its value and `_pythonCount` keeps
its value, except that the zero guard of `writeCount` leaves 1 in place of
0. -/
theorem tallies_reset_on_malloc_only :
    (∀ (ndebug : Bool) (rate : Nat) (h : Heap) (sz : Nat) (env : MallocEnv),
      env.ptr ≠ 0 → assertsPass ndebug sz env.realSize = true → env.sampleMalloc ≠ 0 →
      (malloc ndebug rate h sz env).heap.pythonCount = 0 ∧
      (malloc ndebug rate h sz env).heap.cCount = 0) ∧
    (∀ (rate : Nat) (h : Heap) (ptr : Nat) (env : FreeEnv),
      ptr ≠ 0 → env.sampleFree ≠ 0 →
      (free rate h ptr env).heap.pythonCount = max h.pythonCount 1 ∧
      (free rate h ptr env).heap.cCount = h.cCount) := by
  constructor
  · intro ndebug rate h sz env hp ha hm
    unfold malloc
    simp [hp, ha, hm]
  · intro rate h ptr env hp hm
    unfold free
    simp [hp, hm, writeCount_heap]

/-- Claim C7, amended, at concrete inputs: tallies 640 and 4096 before a sampled
`malloc` and before a sampled `free`. -/
theorem tallies_reset_on_malloc_only_witness :
    ((malloc false 1048576 (Heap.mk 0 0 640 4096) 64 ⟨1, 64, 1, 0, []⟩).heap.pythonCount = 0 ∧
     (malloc false 1048576 (Heap.mk 0 0 640 4096) 64 ⟨1, 64, 1, 0, []⟩).heap.cCount = 0) ∧
    ((free 1048576 (Heap.mk 0 0 640 4096) 1 ⟨64, 1⟩).heap.pythonCount = 640 ∧
     (free 1048576 (Heap.mk 0 0 640 4096) 1 ⟨64, 1⟩).heap.cCount = 4096) :=
  ⟨tallies_reset_on_malloc_only.1 false 1048576 (Heap.mk 0 0 640 4096) 64 ⟨1, 64, 1, 0, []⟩
      (by decide) (by decide) (by decide),
   tallies_reset_on_malloc_only.2 1048576 (Heap.mk 0 0 640 4096) 1 ⟨64, 1⟩
      (by decide) (by decide)⟩

/-- Claim C8: for every size and every captured stack of at most 4 frames,
`recordCallStack` does what the decision table folded over the resolved names
of the frames decides; the fold always decides interpreter or native; an
interpreter decision adds the size to `_pythonCount` (64-bit addition) and
leaves `_cCount` unchanged, a native decision adds it to `_cCount` and leaves
`_pythonCount` unchanged. -/
theorem recordCallStack_decision_table (h : Heap) (sz : Nat) (stack : List Frame)
    (hlen : stack.length ≤ 4) :
    recordCallStack h sz stack = applyDecision h sz (tableFold (stack.map resolvedName)) ∧
    (tableFold (stack.map resolvedName) = Decision.interpreter ∨
      tableFold (stack.map resolvedName) = Decision.native) ∧
    (tableFold (stack.map resolvedName) = Decision.interpreter →
      (recordCallStack h sz stack).pythonCount = (h.pythonCount + sz) % 2 ^ 64 ∧
      (recordCallStack h sz stack).cCount = h.cCount) ∧
    (tableFold (stack.map resolvedName) = Decision.native →
      (recordCallStack h sz stack).cCount = (h.cCount + sz) % 2 ^ 64 ∧
      (recordCallStack h sz stack).pythonCount = h.pythonCount) := by
  obtain ⟨hp, hc⟩ := walk_eq_tableFold stack
  have hrec : recordCallStack h sz stack =
      applyDecision h sz (tableFold (stack.map resolvedName)) := by
    unfold recordCallStack
    rw [backtrace_short stack hlen]
    cases hw : walk stack with
    | python => rw [hp.mp hw]; rfl
    | ccode => rw [hc.mp hw]; rfl
    | next => exact absurd hw (walk_ne_next stack)
  have hdec : tableFold (stack.map resolvedName) = Decision.interpreter ∨
      tableFold (stack.map resolvedName) = Decision.native := by
    cases hw : walk stack with
    | python => exact Or.inl (hp.mp hw)
    | ccode => exact Or.inr (hc.mp hw)
    | next => exact absurd hw (walk_ne_next stack)
  refine ⟨hrec, hdec, ?_, ?_⟩
  · intro hd
    rw [hrec, hd]
    exact ⟨rfl, rfl⟩
  · intro hd
    rw [hrec, hd]
    exact ⟨rfl, rfl⟩

/-- Claim C8 at a concrete input: an unresolved frame, `main`, a cached
`_PyObject_Malloc` and `PyArray_NewFromDescr`; the third frame decides
interpreter. -/
theorem recordCallStack_decision_table_witness :
    recordCallStack Heap.fresh 64
        [⟨none, none⟩, ⟨none, some (some "main".toList)⟩,
         ⟨some "_PyObject_Malloc".toList, none⟩, ⟨none, some (some "PyArray_NewFromDescr".toList)⟩] =
      { Heap.fresh with pythonCount := 64 } :=
  (recordCallStack_decision_table Heap.fresh 64
    [⟨none, none⟩, ⟨none, some (some "main".toList)⟩,
     ⟨some "_PyObject_Malloc".toList, none⟩, ⟨none, some (some "PyArray_NewFromDescr".toList)⟩]
    (by decide)).1.trans (by decide)

/-- Claim C9 fails as stated: the single frame `PyArray_PyIntAsInt` is not
skipped, contains `_Py` and does not contain `_PyCFunction`, yet
`recordCallStack` adds the 64 bytes to `_cCount`: the name begins with `Py` and
contains `PyArray_`, and that test comes first. -/
theorem internal_api_frame_counterexample :
    nearestMatching [⟨none, some (some "PyArray_PyIntAsInt".toList)⟩] =
      some "PyArray_PyIntAsInt".toList ∧
    litUPy <:+: "PyArray_PyIntAsInt".toList ∧
    ¬ litUPyCFunction <:+: "PyArray_PyIntAsInt".toList ∧
    recordCallStack Heap.fresh 64 [⟨none, some (some "PyArray_PyIntAsInt".toList)⟩] =
      { Heap.fresh with cCount := 64 } ∧
    recordCallStack Heap.fresh 64 [⟨none, some (some "PyArray_PyIntAsInt".toList)⟩] ≠
      { Heap.fresh with pythonCount := 64 } := by
  decide

/-- Claim C9, amended: for every size and every captured stack (at most 4
frames) whose nearest non-skipped frame has a resolved name that contains
`_Py`, does not contain `_PyCFunction`, and is not a name that begins with `Py`
and contains `PyArray_`, `recordCallStack` adds the size to `_pythonCount` and
leaves `_cCount` and the trigger counters unchanged. -/
theorem internal_api_frame_is_interpreter (h : Heap) (sz : Nat) (stack : List Frame)
    (name : CString) (hlen : stack.length ≤ 4)
    (hnear : nearestMatching stack = some name)
    (hin : litUPy <:+: name) (hnot : ¬ litUPyCFunction <:+: name)
    (hpub : ¬ (litPy <+: name ∧ litPyArray <:+: name)) :
    (recordCallStack h sz stack).pythonCount = (h.pythonCount + sz) % 2 ^ 64 ∧
    (recordCallStack h sz stack).cCount = h.cCount ∧
    (recordCallStack h sz stack).mallocTriggered = h.mallocTriggered ∧
    (recordCallStack h sz stack).freeTriggered = h.freeTriggered := by
  have hw := walk_find stack
  unfold nearestMatching at hnear
  cases hfind : stack.find? (fun f => decide (frameFlow f ≠ Flow.next)) with
  | none => rw [hfind] at hnear; cases hnear
  | some f =>
    rw [hfind] at hnear hw
    simp only at hnear hw
    have hne : frameFlow f ≠ Flow.next := by
      have := List.find?_some hfind
      simpa using this
    obtain ⟨hn, hp, _⟩ := frameFlow_eq_tableRow f
    have hpy : frameFlow f = Flow.python := by
      rw [hp, hnear]
      have hskip : tableRow (some name) ≠ Decision.skip := by
        rw [← hnear]
        exact fun hs => hne (hn.mpr hs)
      unfold tableRow at hskip ⊢
      by_cases h1 : name.length < 9
      · simp [h1] at hskip
      · by_cases h2 : litPy <+: name
        · have h3 : ¬ litPyArray <:+: name := fun h3 => hpub ⟨h2, h3⟩
          simp [h1, h2, h3]
        · simp [h1, h2, hin, hnot]
    unfold recordCallStack
    rw [backtrace_short stack hlen, hw, hpy]
    exact ⟨rfl, rfl, rfl, rfl⟩

/-- Claim C9, amended, at a concrete input: `main` is skipped and
`_PyObject_Malloc` decides interpreter. -/
theorem internal_api_frame_is_interpreter_witness :
    (recordCallStack Heap.fresh 64
      [⟨none, some (some "main".toList)⟩, ⟨none, some (some "_PyObject_Malloc".toList)⟩]).pythonCount
        = (Heap.fresh.pythonCount + 64) % 2 ^ 64 :=
  (internal_api_frame_is_interpreter Heap.fresh 64
    [⟨none, some (some "main".toList)⟩, ⟨none, some (some "_PyObject_Malloc".toList)⟩]
    "_PyObject_Malloc".toList (by decide) (by decide) (by decide) (by decide) (by decide)).1

/-- Claim C10 fails as stated: with tallies `_pythonCount = 2^24` and
`_cCount = 1` the operands are 16777216 and 16777217, the second is rounded to
16777216 by its conversion to `float`, and `writeCount` reports 1, not
16777216/16777217. -/
theorem reported_fraction_rounds_counterexample :
    max (Heap.mk 0 0 16777216 1).pythonCount 1 + (Heap.mk 0 0 16777216 1).cCount < 2 ^ 64 ∧
    (writeCount (Heap.mk 0 0 16777216 1) AllocSignal.FreeSignal 1048576).2.reported = some 1 ∧
    (writeCount (Heap.mk 0 0 16777216 1) AllocSignal.FreeSignal 1048576).2.reported ≠
      some ((16777216 : ℚ) / (16777216 + 1)) := by
  have hrec : (writeCount (Heap.mk 0 0 16777216 1) AllocSignal.FreeSignal 1048576).2.reported
      = some 1 := by
    have h1 : (writeCount (Heap.mk 0 0 16777216 1) AllocSignal.FreeSignal 1048576).2.fracNum
        = 16777216 := by decide
    have h2 : (writeCount (Heap.mk 0 0 16777216 1) AllocSignal.FreeSignal 1048576).2.fracDen
        = 16777217 := by decide
    unfold Record.reported
    rw [h1, h2]
    exact floatQuotient_tie
  refine ⟨by decide, hrec, ?_⟩
  rw [hrec]
  intro h
  have h' := Option.some.inj h
  norm_num at h'

/-- Claim C10, amended: whenever `max(p, 1) + c` is below 2^64 for the tallies
`p = _pythonCount` and `c = _cCount`, the operands of the reported fraction are
`max(p, 1)` and `max(p, 1) + c`, and the fraction reported is their quotient
formed in `float`: a finite value, strictly positive, within relative error
2^-22 of `max(p, 1) / (max(p, 1) + c)`, and exactly 1 when both tallies are 0;
the guard is stored (`_pythonCount` becomes `max(p, 1)`, `_cCount` is
untouched), so a sampled `free` that starts with `_pythonCount = 0` ends with
`_pythonCount = 1` and `_cCount` unchanged. -/
theorem guarded_fraction :
    (∀ (h : Heap) (sig : AllocSignal) (count : Nat),
      max h.pythonCount 1 + h.cCount < 2 ^ 64 →
      (writeCount h sig count).2.fracNum = max h.pythonCount 1 ∧
      (writeCount h sig count).2.fracDen = max h.pythonCount 1 + h.cCount ∧
      (∃ v : ℚ, (writeCount h sig count).2.reported = some v ∧ 0 < v ∧
        |v - ((max h.pythonCount 1 : ℕ) : ℚ) / ((max h.pythonCount 1 + h.cCount : ℕ) : ℚ)| ≤
          ((max h.pythonCount 1 : ℕ) : ℚ) / ((max h.pythonCount 1 + h.cCount : ℕ) : ℚ)
            / 2 ^ 22) ∧
      (h.pythonCount = 0 → h.cCount = 0 → (writeCount h sig count).2.reported = some 1) ∧
      (writeCount h sig count).1.pythonCount = max h.pythonCount 1 ∧
      (writeCount h sig count).1.cCount = h.cCount) ∧
    (∀ (rate : Nat) (h : Heap) (ptr : Nat) (env : FreeEnv),
      ptr ≠ 0 → env.sampleFree ≠ 0 → h.pythonCount = 0 →
      (free rate h ptr env).heap.pythonCount = 1 ∧
      (free rate h ptr env).heap.cCount = h.cCount) := by
  constructor
  · intro h sig count hno
    obtain ⟨hn, hd⟩ := writeCount_operands h sig count hno
    have hpos : 1 ≤ max h.pythonCount 1 := by omega
    refine ⟨hn, hd, ?_, ?_, ?_, ?_⟩
    · unfold Record.reported
      rw [hn, hd]
      exact floatQuotient_normal (max h.pythonCount 1) (max h.pythonCount 1 + h.cCount)
        hpos (by omega) (by omega) hno
    · intro hp hc0
      unfold Record.reported
      rw [hn, hd, hp, hc0]
      exact floatQuotient_one_one
    · rw [writeCount_heap]
    · rw [writeCount_heap]
  · intro rate h ptr env hp hm h0
    unfold free
    simp [hp, hm, writeCount_heap, h0]

/-- Claim C10, amended, at a concrete input: tallies 0 and 4096. -/
theorem guarded_fraction_witness :
    (max (Heap.mk 0 0 0 4096).pythonCount 1 + (Heap.mk 0 0 0 4096).cCount < 2 ^ 64) ∧
    (writeCount (Heap.mk 0 0 0 4096) AllocSignal.FreeSignal 1048576).2.fracNum = 1 ∧
    (writeCount (Heap.mk 0 0 0 4096) AllocSignal.FreeSignal 1048576).2.fracDen = 1 + 4096 ∧
    (free 1048576 (Heap.mk 0 0 0 4096) 1 ⟨4096, 1⟩).heap.pythonCount = 1 ∧
    (free 1048576 (Heap.mk 0 0 0 4096) 1 ⟨4096, 1⟩).heap.cCount = 4096 :=
  ⟨by decide,
   (guarded_fraction.1 (Heap.mk 0 0 0 4096) AllocSignal.FreeSignal 1048576 (by decide)).1,
   (guarded_fraction.1 (Heap.mk 0 0 0 4096) AllocSignal.FreeSignal 1048576 (by decide)).2.1,
   guarded_fraction.2 1048576 (Heap.mk 0 0 0 4096) 1 ⟨4096, 1⟩ (by decide) (by decide) rfl⟩

end SampleHeap
